import Mathlib

/-!
Verification of the emubox interactive selection menu.

This file embeds the selection-menu core of `emubox.c` — the entry
sorting (`qsort_compare`, the `qsort` call), the navigation loop of
`emu_select_list` (render pass, key handling) and the name array it
scans — and proves the specified properties about the embedding.
-/

namespace Emubox

/-- Entry name, modelled as its byte string (a C `char *`; the
terminating NUL is implicit and names contain no NUL byte). -/
abbrev Name := List Nat

/-- Behaviour of C `strcmp` on two NUL-terminated byte strings,
abstracted to the sign of its result: `-1`, `0` or `1` for
less, equal or greater.  A proper prefix compares less than any
extension because the NUL byte `0` is below every name byte. -/
def strcmp : Name → Name → Int
  | [], [] => 0
  | [], _ :: _ => -1
  | _ :: _, [] => 1
  | a :: as, b :: bs =>
    if a < b then -1 else if b < a then 1 else strcmp as bs

/-- Comparator `qsort_compare` (emubox.c:123-129): dereference the two
`char **` and `strcmp` the names. -/
def qsort_compare (s0 s1 : Name) : Int := strcmp s0 s1

/-- Ordering established by `qsort` with `qsort_compare`: s0 not
greater than s1. -/
def cmpLe (s0 s1 : Name) : Bool := qsort_compare s0 s1 ≤ 0

/-- Propositional form of `cmpLe`. -/
def entryLe (s0 s1 : Name) : Prop := qsort_compare s0 s1 ≤ 0

/-- Model of `qsort(arr, pre_idx, sizeof(char *), qsort_compare)`
(emubox.c:436): the names rearranged into `qsort_compare` order.
`qsort` promises a sorted permutation; `mergeSort` is one. -/
def sortEntries (l : List Name) : List Name := l.mergeSort cmpLe

/-- Keys read by `wgetch` in the selection loop (emubox.c:527-596). -/
inductive Event where
  /-- KEY_UP -/
  | moveUp
  /-- KEY_DOWN -/
  | moveDown
  /-- KEY_RIGHT -/
  | nextPage
  /-- KEY_LEFT -/
  | prevPage
  /-- KEY_BACKSPACE -/
  | cancel
  /-- a newline, `ch == 10` -/
  | confirm
  /-- any other key: the `default` case -/
  | other
deriving DecidableEq, Repr

/-- Mutable navigation variables of `emu_select_list`
(emubox.c:373-376, 449-451): `xs` is the index of the first entry of
the current page, `run_idx` the absolute index of the highlighted
entry, `end_page` the last-page flag (a C `int` used as 0/1). -/
structure NavState where
  xs : Int
  run_idx : Int
  end_page : Bool
deriving DecidableEq, Repr

/-- Scan performed by one render pass,
`for (new_idx = xs; new_idx < (xs + 10); new_idx++, xw++)`
(emubox.c:462-522), abstracted over the entry count `n`: slot `i` of
the name array is NULL exactly when `n ≤ i` (see `renderProbeArr`
below for the array-level version).  Per iteration, in source order:
the NULL check on `arr[new_idx]` (sets `end_page = 1`, breaks), the
`(new_idx + 1) > 9999` out-of-range abort (emubox.c:506-510, prints
"emubox: out of range." and leaves the session — modelled as `none`),
and the NULL probe of `arr[new_idx + 1]` (sets `end_page = 1`,
breaks).  A pass that runs all iterations leaves `end_page` as it
was. -/
def renderProbe (n : Nat) (ep : Bool) : Nat → Int → Option Bool
  | 0, _ => some ep
  | fuel + 1, i =>
    if (n : Int) ≤ i then some true
    else if 9999 < i + 1 then none
    else if (n : Int) ≤ i + 1 then some true
    else renderProbe n ep fuel (i + 1)

/-- Full render pass from state `s`: recomputes `end_page` by the
10-row scan starting at `xs`; `xs` and `run_idx` are untouched. -/
def renderPass (n : Nat) (s : NavState) : Option NavState :=
  (renderProbe n s.end_page 10 s.xs).map fun e => { s with end_page := e }

/-- Result of handling one key: stay in the loop, leave through
KEY_BACKSPACE (`_Exit`), or leave through the newline `break` with the
index the cursor was on. -/
inductive StepOut where
  | next (s : NavState)
  | cancelled
  | chosen (i : Int)
deriving DecidableEq, Repr

/-- Key handling: the `switch (ch)` plus the `ch == 10` break
(emubox.c:528-596), with `n` the entry count `pre_idx`.
KEY_UP decrements `run_idx` and clamps it at 0; KEY_DOWN increments it
and clamps it at `pre_idx - 1`; KEY_RIGHT, only when `end_page == 0`,
advances `xs` by 10 and puts the cursor on the new page start;
KEY_LEFT, only when `xs > 0`, moves `xs` back by 10, puts the cursor
on the new page start and clears `end_page`. -/
def eventStep (n : Nat) (s : NavState) : Event → StepOut
  | .moveUp =>
    let r := s.run_idx - 1
    .next { s with run_idx := if r < 0 then 0 else r }
  | .moveDown =>
    let r := s.run_idx + 1
    .next { s with run_idx := if (n : Int) ≤ r then (n : Int) - 1 else r }
  | .nextPage =>
    if s.end_page = false then
      .next { s with xs := s.xs + 10, run_idx := s.xs + 10 }
    else .next s
  | .prevPage =>
    if 0 < s.xs then
      .next { xs := s.xs - 10, run_idx := s.xs - 10, end_page := false }
    else .next s
  | .cancel => .cancelled
  | .confirm => .chosen s.run_idx
  | .other => .next s

/-- Loop state on entry: `xs = 0`, `run_idx = 0`, `end_page = 0`
(emubox.c:383, 449-450). -/
def initState : NavState := ⟨0, 0, false⟩

/-- Run render-then-key iterations over a list of keys, returning the
state left when the keys run out, or `none` when the session leaves
the loop (out-of-range abort, cancel or confirm). -/
def runSteps (n : Nat) (s : NavState) : List Event → Option NavState
  | [] => some s
  | e :: es =>
    match renderPass n s with
    | none => none
    | some s1 =>
      match eventStep n s1 e with
      | .next s2 => runSteps n s2 es
      | _ => none

/-- States of the selection session reachable from `initState` by
render-then-key iterations that stay in the loop. -/
inductive Reachable (n : Nat) : NavState → Prop where
  | init : Reachable n initState
  | step {s s1 s2 : NavState} {e : Event} :
      Reachable n s → renderPass n s = some s1 →
      eventStep n s1 e = .next s2 → Reachable n s2

/-- Terminal outcome of one selection session. -/
inductive Outcome where
  /-- printed "emubox: no configs are available.", loop never entered -/
  | emptySelection
  /-- KEY_BACKSPACE: `_Exit(EXIT_SUCCESS)` -/
  | cancelled
  /-- newline: the loop breaks and `arr[run_idx]` is used -/
  | chosen (name : Name)
  /-- printed "emubox: out of range." inside a render pass -/
  | outOfRange
  /-- the modelled key stream ran out while still browsing -/
  | pending (s : NavState)
deriving DecidableEq, Repr

/-- Interactive loop (emubox.c:453-597) over the sorted entries. -/
def selectLoop (entries : List Name) (s : NavState) : List Event → Outcome
  | [] => .pending s
  | e :: es =>
    match renderPass entries.length s with
    | none => .outOfRange
    | some s1 =>
      match eventStep entries.length s1 e with
      | .next s2 => selectLoop entries s2 es
      | .cancelled => .cancelled
      | .chosen i => .chosen (entries.getD i.toNat [])

/-- Session body of `emu_select_list` (emubox.c:369-643) from the
filled name array on: with no regular entries (`pre_idx == 0`) it
prints "emubox: no configs are available." and skips the loop
(emubox.c:429-433); otherwise it sorts the names and runs the loop
from `initState`. -/
def emu_select_list (names : List Name) (events : List Event) : Outcome :=
  if names.length = 0 then .emptySelection
  else selectLoop (sortEntries names) initState events

/-- Total length of all entry names, `clinfo.name_sz`
(emubox.c:341-353): the sum over regular entries of `strlen`. -/
def name_sz (names : List Name) : Nat := (names.map List.length).sum

/-- The `arr` allocation, `calloc(clinfo.name_sz + 1, sizeof(char *))`
(emubox.c:398): `name_sz + 1` pointer slots, zero-filled, the first
`names.length` of them pointing at the copied names; `none` is a NULL
slot. -/
def arrSlots (names : List Name) : List (Option Name) :=
  names.map some ++ List.replicate (name_sz names + 1 - names.length) none

/-- Read `arr[i]`: `none` when the access is outside the allocation,
otherwise the slot's content. -/
def slotAt (slots : List (Option Name)) (i : Int) : Option (Option Name) :=
  if 0 ≤ i then slots.get? i.toNat else none

/-- Render-pass scan reading the actual array (emubox.c:462-522):
outer `none` is a read outside the allocation (undefined behaviour),
`some none` the out-of-range abort, `some (some e)` a completed pass
with resulting flag `e`. -/
def renderProbeArr (slots : List (Option Name)) (ep : Bool) :
    Nat → Int → Option (Option Bool)
  | 0, _ => some (some ep)
  | fuel + 1, i =>
    match slotAt slots i with
    | none => none
    | some none => some (some true)
    | some (some _) =>
      if 9999 < i + 1 then some none
      else
        match slotAt slots (i + 1) with
        | none => none
        | some none => some (some true)
        | some (some _) => renderProbeArr slots ep fuel (i + 1)

/-- Loop invariant of the navigation state: page start in range, on a
page boundary and below the abort threshold; cursor in range; and a
raised `end_page` flag only on the last page. -/
def Inv (n : Nat) (s : NavState) : Prop :=
  0 ≤ s.xs ∧ s.xs < n ∧ s.xs % 10 = 0 ∧ s.xs ≤ 9990 ∧
  0 ≤ s.run_idx ∧ s.run_idx < n ∧
  (s.end_page = true → (n : Int) ≤ s.xs + 10)

/-- Byte names for the specified scenario: "a.cfg" in ASCII. -/
def nameA : Name := [97, 46, 99, 102, 103]

/-- Byte name "m.cfg" in ASCII. -/
def nameM : Name := [109, 46, 99, 102, 103]

/-- Byte name "z.cfg" in ASCII. -/
def nameZ : Name := [122, 46, 99, 102, 103]

/-- A render pass whose whole 10-row window lies strictly inside the
entry range and below the abort threshold runs all its iterations and
leaves the `end_page` flag as it was. -/
theorem renderProbe_full (n : Nat) (ep : Bool) :
    ∀ (fuel : Nat) (i : Int), 0 ≤ i → i + fuel < (n : Int) → i + fuel ≤ 9999 →
      renderProbe n ep fuel i = some ep := by
  intro fuel
  induction fuel with
  | zero => intro i _ _ _; rfl
  | succ f ih =>
    intro i h0 hn h9
    have h1 : ¬ ((n : Int) ≤ i) := by omega
    have h2 : ¬ ((9999 : Int) < i + 1) := by omega
    have h3 : ¬ ((n : Int) ≤ i + 1) := by omega
    rw [renderProbe, if_neg h1, if_neg h2, if_neg h3]
    exact ih (i + 1) (by omega) (by omega) (by omega)

/-- A render pass that starts on an existing entry and whose window
covers the last entry, with the entry count below the 4-digit budget,
breaks at the last entry and raises the `end_page` flag. -/
theorem renderProbe_break (n : Nat) (ep : Bool) (h9 : n ≤ 9999) :
    ∀ (fuel : Nat) (i : Int), 0 ≤ i → i < (n : Int) → (n : Int) ≤ i + fuel →
      renderProbe n ep fuel i = some true := by
  intro fuel
  induction fuel with
  | zero => intro i _ hi hn; exfalso; omega
  | succ f ih =>
    intro i h0 hi hn
    have h1 : ¬ ((n : Int) ≤ i) := by omega
    have h2 : ¬ ((9999 : Int) < i + 1) := by omega
    rw [renderProbe, if_neg h1, if_neg h2]
    by_cases h3 : (n : Int) ≤ i + 1
    · rw [if_pos h3]
    · rw [if_neg h3]
      exact ih (i + 1) (by omega) (by omega) (by omega)

/-- A render pass that starts on an existing entry, with the entry
count at least 10000 and the window reaching row index 9999, hits the
out-of-range abort. -/
theorem renderProbe_abort (n : Nat) (ep : Bool) (hn : 10000 ≤ n) :
    ∀ (fuel : Nat) (i : Int), 0 ≤ i → i ≤ 9999 → 9999 < i + fuel →
      renderProbe n ep fuel i = none := by
  intro fuel
  induction fuel with
  | zero => intro i _ h9 hf; exfalso; omega
  | succ f ih =>
    intro i h0 h9 hf
    have h1 : ¬ ((n : Int) ≤ i) := by omega
    rw [renderProbe, if_neg h1]
    by_cases h2 : (9999 : Int) < i + 1
    · rw [if_pos h2]
    · rw [if_neg h2]
      have h3 : ¬ ((n : Int) ≤ i + 1) := by omega
      rw [if_neg h3]
      exact ih (i + 1) (by omega) (by omega) (by omega)

/-- Under the loop invariant, a completed render pass recomputes the
`end_page` flag to exactly "no entry exists at `xs + 10`", leaving the
other fields alone. -/
theorem renderPass_flag {n : Nat} {s s1 : NavState} (h : Inv n s)
    (hr : renderPass n s = some s1) :
    s1 = { s with end_page := decide ((n : Int) ≤ s.xs + 10) } := by
  obtain ⟨hx0, hxn, hx10, hx99, _, _, hep⟩ := h
  unfold renderPass at hr
  by_cases hlast : (n : Int) ≤ s.xs + 10
  · rcases le_or_lt n 9999 with hsmall | hbig
    · rw [renderProbe_break n s.end_page hsmall 10 s.xs hx0 hxn (by push_cast; omega)]
        at hr
      rw [decide_eq_true hlast]
      simpa using hr.symm
    · rw [renderProbe_abort n s.end_page (by omega) 10 s.xs hx0 (by omega)
        (by push_cast; omega)] at hr
      simp at hr
  · rcases Int.le_or_lt (s.xs + 10) 9999 with hsm | hbg
    · rw [renderProbe_full n s.end_page 10 s.xs hx0 (by push_cast; omega)
        (by push_cast; omega)] at hr
      have hepf : s.end_page = false := by
        cases hb : s.end_page
        · rfl
        · exact absurd (hep hb) hlast
      rw [decide_eq_false hlast, ← hepf]
      simpa using hr.symm
    · rw [renderProbe_abort n s.end_page (by omega) 10 s.xs hx0 (by omega)
        (by push_cast; omega)] at hr
      simp at hr

/-- Under the loop invariant, a completed render pass preserves the
invariant, keeps `xs` and `run_idx`, and makes the flag equivalent to
the entry count being at most `xs + 10`. -/
theorem renderPass_inv {n : Nat} {s s1 : NavState} (h : Inv n s)
    (hr : renderPass n s = some s1) :
    Inv n s1 ∧ s1.xs = s.xs ∧ s1.run_idx = s.run_idx ∧
      (s1.end_page = true ↔ (n : Int) ≤ s.xs + 10) := by
  have hs1 := renderPass_flag h hr
  obtain ⟨hx0, hxn, hx10, hx99, hr0, hrn, _⟩ := h
  subst hs1
  refine ⟨⟨hx0, hxn, hx10, hx99, hr0, hrn, ?_⟩, rfl, rfl, ?_⟩
  · intro hd
    simpa using of_decide_eq_true hd
  · simp

/-- The KEY_UP handler clamps the cursor at 0 and changes nothing
else. -/
theorem eventStep_moveUp (n : Nat) (s : NavState) :
    eventStep n s .moveUp = .next { s with run_idx := max (s.run_idx - 1) 0 } := by
  have hup : (if s.run_idx - 1 < 0 then 0 else s.run_idx - 1) =
      max (s.run_idx - 1) 0 := by
    split <;> omega
  simp only [eventStep]
  rw [hup]

/-- The KEY_DOWN handler clamps the cursor at `n - 1` and changes
nothing else. -/
theorem eventStep_moveDown (n : Nat) (s : NavState) :
    eventStep n s .moveDown =
      .next { s with run_idx := min (s.run_idx + 1) ((n : Int) - 1) } := by
  have hdn : (if (n : Int) ≤ s.run_idx + 1 then (n : Int) - 1 else s.run_idx + 1) =
      min (s.run_idx + 1) ((n : Int) - 1) := by
    split <;> omega
  simp only [eventStep]
  rw [hdn]

/-- The KEY_RIGHT handler is guarded by the `end_page` flag: a no-op
when it is raised, otherwise the page advances by 10 and the cursor
lands on the new page start. -/
theorem eventStep_nextPage (n : Nat) (s : NavState) :
    eventStep n s .nextPage =
      .next (if s.end_page then s
             else { s with xs := s.xs + 10, run_idx := s.xs + 10 }) := by
  cases hb : s.end_page <;> simp [eventStep, hb]

/-- The KEY_LEFT handler is guarded by `xs > 0`: a no-op at the first
page, otherwise the page moves back by 10, the cursor lands on the new
page start and the `end_page` flag is cleared. -/
theorem eventStep_prevPage (n : Nat) (s : NavState) :
    eventStep n s .prevPage =
      .next (if 0 < s.xs
             then { xs := s.xs - 10, run_idx := s.xs - 10, end_page := false }
             else s) := by
  by_cases hx : 0 < s.xs <;> simp [eventStep, hx]

/-- One render-then-key iteration that stays in the loop preserves the
loop invariant. -/
theorem eventStep_inv {n : Nat} {s s1 s2 : NavState} {e : Event}
    (h : Inv n s) (hr : renderPass n s = some s1)
    (he : eventStep n s1 e = .next s2) : Inv n s2 := by
  obtain ⟨hinv1, hxs, hri, hflag⟩ := renderPass_inv h hr
  obtain ⟨hx0, hxn, hx10, hx99, hr0, hrn, hep⟩ := hinv1
  cases e with
  | moveUp =>
    rw [eventStep_moveUp] at he
    injection he with he2
    subst he2
    unfold Inv
    dsimp only
    exact ⟨hx0, hxn, hx10, hx99, by omega, by omega, hep⟩
  | moveDown =>
    rw [eventStep_moveDown] at he
    injection he with he2
    subst he2
    unfold Inv
    dsimp only
    exact ⟨hx0, hxn, hx10, hx99, by omega, by omega, hep⟩
  | nextPage =>
    rw [eventStep_nextPage] at he
    injection he with he2
    cases hb : s1.end_page with
    | false =>
      rw [hb] at he2
      simp only [Bool.false_eq_true, if_false] at he2
      subst he2
      have hroom : ¬ ((n : Int) ≤ s.xs + 10) := by
        intro hc
        rw [hflag.mpr hc] at hb
        cases hb
      have hx80 : s1.xs ≤ 9980 := by
        by_contra hcon
        have hx90 : s.xs = 9990 := by omega
        have hbig : 10000 ≤ n := by omega
        rw [renderPass, renderProbe_abort n s.end_page hbig 10 s.xs
          (by omega) (by omega) (by push_cast; omega)] at hr
        cases hr
      unfold Inv
      dsimp only
      refine ⟨by omega, by omega, by omega, by omega, by omega, by omega, ?_⟩
      intro hd
      cases hd
    | true =>
      rw [hb] at he2
      simp only [if_true] at he2
      subst he2
      exact ⟨hx0, hxn, hx10, hx99, hr0, hrn, hep⟩
  | prevPage =>
    rw [eventStep_prevPage] at he
    injection he with he2
    by_cases hgt : 0 < s1.xs
    · rw [if_pos hgt] at he2
      subst he2
      unfold Inv
      dsimp only
      refine ⟨by omega, by omega, by omega, by omega, by omega, by omega, ?_⟩
      intro hfalse
      cases hfalse
    · rw [if_neg hgt] at he2
      subst he2
      exact ⟨hx0, hxn, hx10, hx99, hr0, hrn, hep⟩
  | cancel => simp [eventStep] at he
  | confirm => simp [eventStep] at he
  | other =>
    simp only [eventStep] at he
    injection he with he2
    subst he2
    exact ⟨hx0, hxn, hx10, hx99, hr0, hrn, hep⟩

/-- Every state reachable in the selection session over a non-empty
entry set satisfies the loop invariant. -/
theorem reachable_inv {n : Nat} (h1 : 1 ≤ n) {s : NavState}
    (h : Reachable n s) : Inv n s := by
  induction h with
  | init =>
    unfold Inv initState
    dsimp only
    refine ⟨by omega, by omega, by omega, by omega, by omega, by omega, ?_⟩
    intro hfalse
    cases hfalse
  | step hre hr he ih => exact eventStep_inv ih hr he

/-- States produced by a run of render-then-key iterations from a
reachable state are reachable. -/
theorem runSteps_reachable {n : Nat} :
    ∀ (es : List Event) (s s' : NavState), Reachable n s →
      runSteps n s es = some s' → Reachable n s' := by
  intro es
  induction es with
  | nil =>
    intro s s' h hr
    rw [runSteps] at hr
    injection hr with hr2
    subst hr2
    exact h
  | cons e es ih =>
    intro s s' h hr
    rw [runSteps] at hr
    cases hpass : renderPass n s with
    | none =>
      rw [hpass] at hr
      dsimp only at hr
      exact Option.noConfusion hr
    | some s1 =>
      rw [hpass] at hr
      dsimp only at hr
      cases hev : eventStep n s1 e with
      | next s2 =>
        rw [hev] at hr
        dsimp only at hr
        exact ih s2 s' (Reachable.step h hpass hev) hr
      | cancelled =>
        rw [hev] at hr
        dsimp only at hr
        exact Option.noConfusion hr
      | chosen i =>
        rw [hev] at hr
        dsimp only at hr
        exact Option.noConfusion hr

/-- Two byte strings compare equal under `strcmp` exactly when they
are the same string. -/
theorem strcmp_eq_zero_iff : ∀ a b : Name, strcmp a b = 0 ↔ a = b := by
  intro a
  induction a with
  | nil =>
    intro b
    cases b <;> simp [strcmp]
  | cons x xs ih =>
    intro b
    cases b with
    | nil => simp [strcmp]
    | cons y ys =>
      simp only [strcmp]
      rcases Nat.lt_trichotomy x y with h | h | h
      · rw [if_pos h]
        constructor
        · intro habs
          exact absurd habs (by norm_num)
        · intro habs
          injection habs with h1 _
          omega
      · subst h
        rw [if_neg (lt_irrefl x), if_neg (lt_irrefl x)]
        simp [ih ys]
      · rw [if_neg (by omega), if_pos h]
        constructor
        · intro habs
          exact absurd habs (by norm_num)
        · intro habs
          injection habs with h1 _
          omega

/-- Swapping the arguments of `strcmp` flips the sign of the
result. -/
theorem strcmp_swap : ∀ a b : Name, strcmp b a = - strcmp a b := by
  intro a
  induction a with
  | nil =>
    intro b
    cases b <;> simp [strcmp]
  | cons x xs ih =>
    intro b
    cases b with
    | nil => simp [strcmp]
    | cons y ys =>
      simp only [strcmp]
      rcases Nat.lt_trichotomy x y with h | h | h
      · rw [if_neg (by omega), if_pos h, if_pos h]
        norm_num
      · subst h
        rw [if_neg (lt_irrefl x), if_neg (lt_irrefl x), if_neg (lt_irrefl x),
          if_neg (lt_irrefl x)]
        exact ih ys
      · rw [if_pos h, if_neg (by omega), if_pos h]

/-- Transitivity of the `strcmp` "not greater" order. -/
theorem strcmp_trans : ∀ a b c : Name,
    strcmp a b ≤ 0 → strcmp b c ≤ 0 → strcmp a c ≤ 0 := by
  intro a
  induction a with
  | nil =>
    intro b c _ _
    cases c <;> simp [strcmp]
  | cons x xs ih =>
    intro b c hab hbc
    cases b with
    | nil => simp [strcmp] at hab
    | cons y ys =>
      cases c with
      | nil => simp [strcmp] at hbc
      | cons z zs =>
        simp only [strcmp] at hab hbc ⊢
        rcases Nat.lt_trichotomy x y with h1 | h1 | h1
        · rcases Nat.lt_trichotomy y z with h2 | h2 | h2
          · rw [if_pos (by omega)]
            norm_num
          · subst h2
            rw [if_pos h1]
            norm_num
          · rw [if_neg (by omega), if_pos h2] at hbc
            norm_num at hbc
        · subst h1
          rw [if_neg (lt_irrefl x), if_neg (lt_irrefl x)] at hab
          rcases Nat.lt_trichotomy x z with h2 | h2 | h2
          · rw [if_pos h2]
            norm_num
          · subst h2
            rw [if_neg (lt_irrefl x), if_neg (lt_irrefl x)] at hbc ⊢
            exact ih ys zs hab hbc
          · rw [if_neg (by omega), if_pos h2] at hbc
            norm_num at hbc
        · rw [if_neg (by omega), if_pos h1] at hab
          norm_num at hab

/-- Antisymmetry of the entry order: mutually not-greater names are
identical. -/
theorem entryLe_antisymm : ∀ a b : Name, entryLe a b → entryLe b a → a = b := by
  intro a b h1 h2
  unfold entryLe qsort_compare at h1 h2
  rw [strcmp_swap a b] at h2
  exact (strcmp_eq_zero_iff a b).mp (by omega)

/-- Transitivity of `cmpLe`, in the boolean form `mergeSort`'s
correctness lemmas expect. -/
theorem cmpLe_trans : ∀ a b c : Name,
    cmpLe a b = true → cmpLe b c = true → cmpLe a c = true := by
  intro a b c h1 h2
  simp only [cmpLe, qsort_compare, decide_eq_true_eq] at h1 h2 ⊢
  exact strcmp_trans a b c h1 h2

/-- Totality of `cmpLe`, in the boolean form `mergeSort`'s
correctness lemmas expect. -/
theorem cmpLe_total : ∀ a b : Name, (cmpLe a b || cmpLe b a) = true := by
  intro a b
  simp only [cmpLe, qsort_compare, Bool.or_eq_true, decide_eq_true_eq]
  have := strcmp_swap a b
  omega

/-- Sorting the entries yields a permutation of them. -/
theorem sortEntries_perm (l : List Name) : (sortEntries l).Perm l :=
  List.mergeSort_perm l cmpLe

/-- The sorted entries are in `strcmp` ascending order. -/
theorem sortEntries_sorted (l : List Name) :
    List.Sorted entryLe (sortEntries l) := by
  have h := @List.sorted_mergeSort Name cmpLe cmpLe_trans cmpLe_total l
  exact h.imp fun hab => by
    simpa only [cmpLe, qsort_compare, decide_eq_true_eq] using hab

/-- Sorting is order-normalizing: any two enumeration orders of the
same names sort to the same sequence. -/
theorem sortEntries_eq_of_perm {l l' : List Name} (h : l.Perm l') :
    sortEntries l' = sortEntries l := by
  haveI : IsAntisymm Name entryLe := ⟨entryLe_antisymm⟩
  exact List.eq_of_perm_of_sorted
    (((sortEntries_perm l').trans h.symm).trans (sortEntries_perm l).symm)
    (sortEntries_sorted l') (sortEntries_sorted l)

/-- Each entry name being non-empty, the allocation bound `name_sz`
dominates the entry count. -/
theorem length_le_name_sz {names : List Name} (h : ∀ x ∈ names, x ≠ []) :
    names.length ≤ name_sz names := by
  induction names with
  | nil => simp [name_sz]
  | cons x xs ih =>
    have hx : x ≠ [] := h x (by simp)
    have h1 : 1 ≤ x.length := by
      cases x with
      | nil => exact absurd rfl hx
      | cons y ys => simp
    have h2 := ih fun y hy => h y (by simp [hy])
    simp only [name_sz, List.map_cons, List.sum_cons, List.length_cons]
    simp only [name_sz] at h2
    omega

/-- The `arr` allocation holds exactly `name_sz + 1` pointer slots. -/
theorem arrSlots_length {names : List Name} (h : ∀ x ∈ names, x ≠ []) :
    (arrSlots names).length = name_sz names + 1 := by
  have := length_le_name_sz h
  simp only [arrSlots, List.length_append, List.length_map, List.length_replicate]
  omega

/-- Reading a slot below the entry count yields a name. -/
theorem slotAt_name {names : List Name} {i : Int} (h0 : 0 ≤ i)
    (hi : i < names.length) :
    ∃ nm, slotAt (arrSlots names) i = some (some nm) := by
  have hlt : i.toNat < names.length := by omega
  refine ⟨names.get ⟨i.toNat, hlt⟩, ?_⟩
  rw [slotAt, if_pos h0, arrSlots]
  rw [List.get?_append (by simpa using hlt)]
  rw [List.get?_map, List.get?_eq_get hlt]
  rfl

/-- Reading the slot right after the last entry yields the NULL
sentinel `calloc` left there. -/
theorem slotAt_sentinel {names : List Name} (h : ∀ x ∈ names, x ≠ []) :
    slotAt (arrSlots names) (names.length : Int) = some none := by
  have hle := length_le_name_sz h
  rw [slotAt, if_pos (by positivity)]
  rw [Int.toNat_natCast, arrSlots, List.get?_append_right (by simp)]
  simp only [List.length_map, Nat.sub_self]
  rw [show name_sz names + 1 - names.length = (name_sz names - names.length) + 1
    from by omega]
  rw [List.replicate_succ]
  rfl

/-- The render pass over the real slot array never reads outside the
allocation and agrees with the entry-count abstraction. -/
theorem renderProbeArr_refines {names : List Name} (h : ∀ x ∈ names, x ≠ [])
    (ep : Bool) :
    ∀ (fuel : Nat) (i : Int), 0 ≤ i → i < names.length →
      renderProbeArr (arrSlots names) ep fuel i =
        some (renderProbe names.length ep fuel i) := by
  intro fuel
  induction fuel with
  | zero => intro i _ _; rfl
  | succ f ih =>
    intro i h0 hi
    obtain ⟨nm, hslot⟩ := slotAt_name h0 hi
    rw [renderProbeArr, renderProbe, hslot]
    dsimp only
    rw [if_neg (show ¬ ((names.length : Int) ≤ i) from by omega)]
    by_cases habort : (9999 : Int) < i + 1
    · rw [if_pos habort, if_pos habort]
    · rw [if_neg habort, if_neg habort]
      rcases lt_or_eq_of_le (show i + 1 ≤ (names.length : Int) from by omega)
        with hlt | heq
      · obtain ⟨nm1, hslot1⟩ := slotAt_name (by omega) hlt
        rw [hslot1]
        dsimp only
        rw [if_neg (show ¬ ((names.length : Int) ≤ i + 1) from by omega)]
        exact ih (i + 1) (by omega) hlt
      · rw [heq, slotAt_sentinel h]
        dsimp only
        rw [if_pos (le_refl _)]

/-- A completed render pass keeps the page start and the cursor. -/
theorem renderPass_fields {n : Nat} {s s1 : NavState}
    (hr : renderPass n s = some s1) : s1.xs = s.xs ∧ s1.run_idx = s.run_idx := by
  unfold renderPass at hr
  cases hp : renderProbe n s.end_page 10 s.xs with
  | none =>
    rw [hp] at hr
    exact Option.noConfusion hr
  | some e =>
    rw [hp] at hr
    dsimp only [Option.map] at hr
    injection hr with h2
    rw [← h2]
    exact ⟨rfl, rfl⟩

/-- C1 counterexample: the page-window invariant fails on the code.
With 11 entries, ten KEY_DOWN presses from the initial state reach the
state `xs = 0, run_idx = 10`: the cursor sits past the end of the
current page (`run_idx ≥ xs + 10`), because KEY_DOWN clamps only at
the global bound `pre_idx - 1` (emubox.c:536-541), never at the page
edge. -/
theorem C1_counterexample :
    Reachable 11 { xs := 0, run_idx := 10, end_page := false } ∧
    ¬ (({ xs := 0, run_idx := 10, end_page := false } : NavState).run_idx <
        ({ xs := 0, run_idx := 10, end_page := false } : NavState).xs + 10) := by
  constructor
  · exact runSteps_reachable (List.replicate 10 .moveDown) initState
      { xs := 0, run_idx := 10, end_page := false } Reachable.init (by decide)
  · decide

/-- C1 amended: in every reachable state of a session over `n ≥ 1`
entries, the cursor and the page start stay within the global entry
range, `0 ≤ run_idx < n` and `0 ≤ xs < n`; the cursor does not in
general stay within the window `[xs, xs + 10)`. -/
theorem C1_amended_bounds (n : Nat) (s : NavState) (h1 : 1 ≤ n)
    (h : Reachable n s) :
    0 ≤ s.run_idx ∧ s.run_idx < n ∧ 0 ≤ s.xs ∧ s.xs < n := by
  obtain ⟨a, b, _, _, c, d, _⟩ := reachable_inv h1 h
  exact ⟨c, d, a, b⟩

/-- Witness for C1 amended at `n = 1` and the initial state. -/
theorem C1_amended_bounds_witness :
    0 ≤ initState.run_idx ∧ initState.run_idx < (1 : Nat) ∧
    0 ≤ initState.xs ∧ initState.xs < (1 : Nat) :=
  C1_amended_bounds 1 initState (le_refl 1) Reachable.init

/-- C2 counterexample: with 10000 entries (an entry exists at position
9999, past the 4-digit budget) the session does NOT abort before
entering the interactive loop: the first render pass completes and a
KEY_DOWN is processed normally. -/
theorem C2_counterexample :
    runSteps 10000 initState [Event.moveDown] =
      some { xs := 0, run_idx := 1, end_page := false } := by decide

set_option maxRecDepth 40000 in
/-- C2 amended: with at least 10000 entries the session enters the
loop normally and fails with the out-of-range abort (the
"emubox: out of range." message, emubox.c:506-510) only when a render
pass reaches row index 9999, i.e. on the page starting at 9990 — a
page the user can actually reach, as the second conjunct shows for
exactly 10000 entries (999 KEY_RIGHT presses). -/
theorem C2_amended_lazy_abort :
    (∀ (n : Nat) (s : NavState), 10000 ≤ n → s.xs = 9990 →
      renderPass n s = none) ∧
    Reachable 10000 { xs := 9990, run_idx := 9990, end_page := false } := by
  constructor
  · intro n s hn hxs
    rw [renderPass, renderProbe_abort n s.end_page hn 10 s.xs (by omega)
      (by omega) (by push_cast; omega)]
    rfl
  · exact runSteps_reachable (List.replicate 999 .nextPage) initState
      { xs := 9990, run_idx := 9990, end_page := false } Reachable.init (by decide)

/-- Witness for C2 amended: the abort at page start 9990 with 10000
entries. -/
theorem C2_amended_lazy_abort_witness :
    renderPass 10000 { xs := 9990, run_idx := 9990, end_page := false } = none :=
  C2_amended_lazy_abort.1 10000 { xs := 9990, run_idx := 9990, end_page := false }
    (le_refl 10000) rfl

/-- C3: KEY_RIGHT is a no-op when `end_page` is raised; otherwise the
page start advances by exactly 10 and the cursor lands on the new page
start (emubox.c:543-557). -/
theorem C3_nextPage_spec (n : Nat) (s : NavState) :
    eventStep n s .nextPage =
      .next (if s.end_page then s
             else { s with xs := s.xs + 10, run_idx := s.xs + 10 }) :=
  eventStep_nextPage n s

/-- C4: KEY_LEFT is a no-op when the page start is 0; otherwise the
page start moves back by exactly 10, the cursor lands on the new page
start and the `end_page` flag is cleared (emubox.c:559-574). -/
theorem C4_prevPage_spec (n : Nat) (s : NavState) (h : 0 ≤ s.xs) :
    eventStep n s .prevPage =
      .next (if s.xs = 0 then s
             else { xs := s.xs - 10, run_idx := s.xs - 10, end_page := false }) := by
  rw [eventStep_prevPage]
  by_cases hx : s.xs = 0
  · rw [if_pos hx, if_neg (by omega)]
  · rw [if_neg hx, if_pos (by omega)]

/-- Witness for C4 at a state on the third page. -/
theorem C4_prevPage_spec_witness :
    eventStep 30 { xs := 20, run_idx := 25, end_page := true } .prevPage =
      .next (if (20 : Int) = 0 then { xs := 20, run_idx := 25, end_page := true }
             else { xs := 10, run_idx := 10, end_page := false }) :=
  C4_prevPage_spec 30 { xs := 20, run_idx := 25, end_page := true } (by decide)

/-- C5: KEY_UP sets the cursor to `max (run_idx - 1) 0` and KEY_DOWN
to `min (run_idx + 1) (n - 1)`; neither touches the page start or the
`end_page` flag — there is no wrap and no automatic page change
(emubox.c:529-541). -/
theorem C5_rowMoves (n : Nat) (s : NavState) :
    eventStep n s .moveUp = .next { s with run_idx := max (s.run_idx - 1) 0 } ∧
    eventStep n s .moveDown =
      .next { s with run_idx := min (s.run_idx + 1) ((n : Int) - 1) } :=
  ⟨eventStep_moveUp n s, eventStep_moveDown n s⟩

unseal List.merge List.mergeSort in
/-- C6: a confirm (newline) ends the session choosing the entry the
cursor is on, `arr[run_idx]` (emubox.c:592-596, 611-616); and in the
specified scenario the entries "a.cfg", "z.cfg", "m.cfg" list sorted
as "a.cfg", "m.cfg", "z.cfg", so one KEY_DOWN followed by confirm
chooses "m.cfg". -/
theorem C6_confirm_chooses_cursor :
    (∀ (entries : List Name) (s s1 : NavState),
        renderPass entries.length s = some s1 →
        selectLoop entries s [Event.confirm] =
          .chosen (entries.getD s.run_idx.toNat [])) ∧
    emu_select_list [nameA, nameZ, nameM] [Event.moveDown, Event.confirm] =
      .chosen nameM := by
  constructor
  · intro entries s s1 hr
    have hri := (renderPass_fields hr).2
    rw [selectLoop, hr]
    dsimp only [eventStep]
    rw [hri]
  · decide

/-- Witness for C6 with a single entry. -/
theorem C6_confirm_chooses_cursor_witness :
    selectLoop [nameA] initState [Event.confirm] =
      Outcome.chosen ([nameA].getD initState.run_idx.toNat []) :=
  C6_confirm_chooses_cursor.1 [nameA] initState
    { xs := 0, run_idx := 0, end_page := true } (by decide)

/-- C7: after every completed render pass from a reachable state of a
session over `n ≥ 1` entries, the `end_page` flag is raised exactly
when no entry exists at `xs + 10`, i.e. when `n ≤ xs + 10`: the
per-frame NULL probe is equivalent to comparing `xs + 10` against the
entry count. -/
theorem C7_flag_matches_count (n : Nat) (s s1 : NavState) (h1 : 1 ≤ n)
    (hre : Reachable n s) (hr : renderPass n s = some s1) :
    (s1.end_page = true ↔ (n : Int) ≤ s.xs + 10) :=
  (renderPass_inv (reachable_inv h1 hre) hr).2.2.2

/-- Witness for C7 at `n = 1` and the initial render. -/
theorem C7_flag_matches_count_witness :
    (({ xs := 0, run_idx := 0, end_page := true } : NavState).end_page = true ↔
      ((1 : Nat) : Int) ≤ initState.xs + 10) :=
  C7_flag_matches_count 1 initState { xs := 0, run_idx := 0, end_page := true }
    (le_refl 1) Reachable.init (by decide)

/-- C8: entry listing is deterministic and order-normalizing: for
non-empty, pairwise distinct names, the sort yields a byte-wise
lexicographically ascending permutation of the input, and any
re-enumeration of the same names sorts to the identical sequence. -/
theorem C8_sort_deterministic (l l' : List Name)
    (_hne : ∀ x ∈ l, x ≠ []) (_hnd : l.Nodup) (hp : l.Perm l') :
    List.Sorted entryLe (sortEntries l) ∧ (sortEntries l).Perm l ∧
      sortEntries l' = sortEntries l :=
  ⟨sortEntries_sorted l, sortEntries_perm l, sortEntries_eq_of_perm hp⟩

/-- Witness for C8 on the two enumeration orders of "a.cfg" and
"m.cfg". -/
theorem C8_sort_deterministic_witness :
    List.Sorted entryLe (sortEntries [nameA, nameM]) ∧
    (sortEntries [nameA, nameM]).Perm [nameA, nameM] ∧
    sortEntries [nameM, nameA] = sortEntries [nameA, nameM] :=
  C8_sort_deterministic [nameA, nameM] [nameM, nameA] (by decide) (by decide)
    (by decide)

/-- C9: with an empty entry set the session reports the
"no configs are available" condition for any input whatsoever — the
interactive loop is never entered and no frame is rendered
(emubox.c:429-433), and the empty listing is not an error. -/
theorem C9_empty_selection (events : List Event) :
    emu_select_list [] events = Outcome.emptySelection := rfl

/-- C10: the name array is allocated with `name_sz + 1` slots, which
is at least `names.length + 1` since every name is non-empty; and a
render pass over the real slot array starting on an existing entry
never reads outside the allocation — it returns exactly the result of
the entry-count abstraction (every probed slot holds a name below the
entry count and the NULL sentinel at it). -/
theorem C10_probe_in_bounds (names : List Name) (ep : Bool) (i : Int)
    (hne : ∀ x ∈ names, x ≠ []) (h0 : 0 ≤ i) (hi : i < names.length) :
    names.length + 1 ≤ (arrSlots names).length ∧
    renderProbeArr (arrSlots names) ep 10 i =
      some (renderProbe names.length ep 10 i) := by
  constructor
  · rw [arrSlots_length hne]
    have := length_le_name_sz hne
    omega
  · exact renderProbeArr_refines hne ep 10 i h0 hi

/-- Witness for C10 on a one-entry array. -/
theorem C10_probe_in_bounds_witness :
    [nameA].length + 1 ≤ (arrSlots [nameA]).length ∧
    renderProbeArr (arrSlots [nameA]) false 10 0 =
      some (renderProbe [nameA].length false 10 0) :=
  C10_probe_in_bounds [nameA] false 0 (by decide) (by decide) (by decide)

end Emubox
